import Mathlib

/-!
Verification of the `digicomm` signal-processing library (`src/digicomm/__init__.py`).

Python floats are modelled by real numbers; scalar parameters that only ever feed
branch conditions and polynomial arithmetic (filter lengths, sample periods,
roll-off factors, delays) are modelled by rationals so that every branch condition
of the source stays decidable.  Fallible functions (Python exceptions) return
`Option`/`Except`.  NumPy error kinds are distinguished by `DcError`.
-/

/-- The kinds of Python exceptions the library can raise.
`invalidParameter` stands for the `raise Exception(...)` calls of the source
(the "designated parameter error" of the spec); `keyError` for a `KeyError`
from `kwargs['SNR']`; `indexError` for an out-of-bounds NumPy index;
`valueError` for NumPy's rejection of empty/zero-length FFT and `argmax`. -/
inductive DcError : Type
  | invalidParameter
  | keyError
  | indexError
  | valueError
deriving DecidableEq, Repr

/-- Full linear convolution of two (zero-extended) sequences, as computed by
`np.convolve`: output index `k` holds `∑ i, x[i] * h[k-i]`, output length
`len x + len h - 1`. -/
def convolve {α : Type} [CommRing α] (x h : List α) : List α :=
  List.ofFn fun k : Fin (x.length + h.length - 1) =>
    ∑ i ∈ Finset.range ((k : ℕ) + 1), x.getD i 0 * h.getD ((k : ℕ) - i) 0

/-- The Python slice `l[p:-p]`: drops `p` entries from both ends. -/
def trimEnds {α : Type} (l : List α) (p : ℕ) : List α :=
  (l.drop p).take (l.length - 2 * p)

/-- The combined effect of `xd[0:pad] = 0`, `xd[-pad:-1] = 0`, `xd[-1] = 0`
in `derivativeFilter2`: entries with index `< p` or `≥ len - p` are zeroed. -/
def zeroEdges {α : Type} [Zero α] (l : List α) (p : ℕ) : List α :=
  List.ofFn fun i : Fin l.length =>
    if (i : ℕ) < p ∨ l.length - p ≤ (i : ℕ) then 0 else l.get i

/-- The linear boundary extrapolation shared by `derivativeFilter` and
`fractionalDelayFilter` (source lines 279-282 and 311-314): `pad` samples
`x[0] - k*(x[1]-x[0])` (k = pad..1) are prepended and `pad` samples
`x[-1] + k*(x[-1]-x[-2])` (k = 1..pad) are appended. -/
def extendLinear {α : Type} [CommRing α] (x : List α) (pad : ℕ) : List α :=
  (List.ofFn fun j : Fin pad =>
    x.getD 0 0 - ((pad - (j : ℕ) : ℕ) : α) * (x.getD 1 0 - x.getD 0 0))
  ++ x ++
  (List.ofFn fun j : Fin pad =>
    x.getD (x.length - 1) 0 + (((j : ℕ) + 1 : ℕ) : α) *
      (x.getD (x.length - 1) 0 - x.getD (x.length - 2) 0))

/-- `scipy.signal.windows.blackman(N)` (symmetric):
`0.42 - 0.5*cos(2*pi*k/(N-1)) + 0.08*cos(4*pi*k/(N-1))` for `k = 0..N-1`. -/
noncomputable def blackmanWin (N k : ℕ) : ℝ :=
  0.42 - 0.5 * Real.cos (2 * Real.pi * (k : ℝ) / ((N : ℝ) - 1)) +
    0.08 * Real.cos (4 * Real.pi * (k : ℝ) / ((N : ℝ) - 1))

/-- The tap sequence `d` built by `createDerivativeFilter` (source lines 244-251),
for the lengths that pass its parity check (`N` odd): `nd` runs over the centered
integer grid `-(N-1)/2 .. (N-1)/2`; the tap at `nd = 0` stays `0`, every other tap
is `(1/Tsamp) * (-1)^nd / nd`; a Blackman window is applied entrywise. -/
noncomputable def createDerivativeFilterTaps (N : ℕ) (Tsamp : ℚ) : List ℝ :=
  List.ofFn fun k : Fin N =>
    (if ((k : ℤ) - ((N : ℤ) - 1) / 2) = 0 then 0
     else (1 / (Tsamp : ℝ)) * ((-1 : ℝ) ^ ((k : ℤ) - ((N : ℤ) - 1) / 2) /
       ((((k : ℤ) - ((N : ℤ) - 1) / 2) : ℤ) : ℝ))) * blackmanWin N k

/-- `createDerivativeFilter(N, Tsamp)` (source lines 237-251): raises
(`none`) unless `(N+1) % 4 == 0`, otherwise returns the windowed taps. -/
noncomputable def createDerivativeFilter (N : ℕ) (Tsamp : ℚ) : Option (List ℝ) :=
  if (N + 1) % 4 ≠ 0 then none
  else some (createDerivativeFilterTaps N Tsamp)

/-- `derivativeFilter(x, N, Tsamp)` (source lines 269-286): build the taps
(raising unless `(N+1) % 4 == 0`), extrapolate `pad = (N-1)/2` samples linearly
on both ends (raising `IndexError` when `len(x) < 2`, since `x[1]` and `x[-2]`
are read), convolve, and keep the slice `[2*pad:-2*pad]`. -/
noncomputable def derivativeFilter (x : List ℝ) (N : ℕ) (Tsamp : ℚ) : Option (List ℝ) :=
  if (N + 1) % 4 ≠ 0 then none
  else if x.length < 2 then none
  else
    some (trimEnds (convolve (extendLinear x ((N - 1) / 2)) (createDerivativeFilterTaps N Tsamp))
      (2 * ((N - 1) / 2)))

/-- `derivativeFilter2(x, N, Tsamp, zero_edge)` (source lines 254-266): build the
taps (raising unless `(N+1) % 4 == 0`), convolve directly (`np.convolve` raises on
an empty input), keep the slice `[pad:-pad]`, and optionally zero the `pad`
unreliable samples at each end. -/
noncomputable def derivativeFilter2 (x : List ℝ) (N : ℕ) (Tsamp : ℚ) (zero_edge : Bool) :
    Option (List ℝ) :=
  if (N + 1) % 4 ≠ 0 then none
  else if x.length = 0 then none
  else
    some (if zero_edge then
        zeroEdges (trimEnds (convolve x (createDerivativeFilterTaps N Tsamp)) ((N - 1) / 2))
          ((N - 1) / 2)
      else trimEnds (convolve x (createDerivativeFilterTaps N Tsamp)) ((N - 1) / 2))

/-- `fractionalDelayCoeffs(T, dT, L)` (source lines 289-298): taps indexed by the
centered grid `n = -L..L`, value `sin(x)/x` at `x = (n + dT/T)*pi`, with the
singular point `x = 0` mapped to `1` (the array is initialised with ones and only
the indices with `x != 0` are overwritten).  The branch condition only depends on
the rational quantity `n + dT/T`, so it is kept in `ℚ`. -/
noncomputable def fractionalDelayCoeffs (T dT : ℚ) (L : ℕ) : List ℝ :=
  List.ofFn fun k : Fin (2 * L + 1) =>
    if (((k : ℕ) : ℚ) - (L : ℚ) + dT / T) = 0 then 1
    else Real.sin (((((k : ℕ) : ℚ) - (L : ℚ) + dT / T : ℚ) : ℝ) * Real.pi) /
      (((((k : ℕ) : ℚ) - (L : ℚ) + dT / T : ℚ) : ℝ) * Real.pi)

/-- `fractionalDelayFilter(x, gamma, N)` (source lines 302-318): taps
`fractionalDelayCoeffs(1, gamma, N//2)`, `pad = int((N-1)/2)`, then the same
extrapolate-convolve-trim pipeline as `derivativeFilter`.  When `len(x) < 2` the
extrapolation reads `x[0]/x[1]/x[-2]` out of bounds; when `pad = 0` (i.e. `N ≤ 2`)
the assignment `x2[pad:-pad] = x` targets the empty slice `x2[0:0]` and raises a
broadcast `ValueError` for the non-empty `x`.  Both failure modes yield `none`. -/
noncomputable def fractionalDelayFilter (x : List ℝ) (gamma : ℚ) (N : ℕ) : Option (List ℝ) :=
  if x.length < 2 then none
  else if (N - 1) / 2 = 0 then none
  else
    some (trimEnds (convolve (extendLinear x ((N - 1) / 2)) (fractionalDelayCoeffs 1 gamma (N / 2)))
      (2 * ((N - 1) / 2)))

/-- `derivativeFilter` on a complex-valued input.  The buffer `x2 = np.zeros(...)`
is a real `float64` array, so each complex value written into it keeps only its
real part (NumPy casts the complex data down; recent versions refuse the
assignment outright — either way the imaginary part never reaches the
convolution).  The returned array is real. -/
noncomputable def derivativeFilterC (x : List ℂ) (N : ℕ) (Tsamp : ℚ) : Option (List ℝ) :=
  if (N + 1) % 4 ≠ 0 then none
  else if x.length < 2 then none
  else
    some (trimEnds
      (convolve ((extendLinear x ((N - 1) / 2)).map Complex.re) (createDerivativeFilterTaps N Tsamp))
      (2 * ((N - 1) / 2)))

/-- `fractionalDelayFilter` on a complex-valued input; the same real buffer
discards the imaginary parts (see `derivativeFilterC`). -/
noncomputable def fractionalDelayFilterC (x : List ℂ) (gamma : ℚ) (N : ℕ) : Option (List ℝ) :=
  if x.length < 2 then none
  else if (N - 1) / 2 = 0 then none
  else
    some (trimEnds
      (convolve ((extendLinear x ((N - 1) / 2)).map Complex.re) (fractionalDelayCoeffs 1 gamma (N / 2)))
      (2 * ((N - 1) / 2)))

/-- `derivativeFilter2` on a complex-valued input: `np.convolve(x, d)` operates on
the complex samples directly (the real taps are promoted to complex), so no
imaginary information is lost. -/
noncomputable def derivativeFilter2C (x : List ℂ) (N : ℕ) (Tsamp : ℚ) (zero_edge : Bool) :
    Option (List ℂ) :=
  if (N + 1) % 4 ≠ 0 then none
  else if x.length = 0 then none
  else
    some (if zero_edge then
        zeroEdges (trimEnds (convolve x ((createDerivativeFilterTaps N Tsamp).map
          (fun t : ℝ => (t : ℂ)))) ((N - 1) / 2)) ((N - 1) / 2)
      else trimEnds (convolve x ((createDerivativeFilterTaps N Tsamp).map
          (fun t : ℝ => (t : ℂ)))) ((N - 1) / 2))

/-- The nonlinear transform of both frequency estimators (source lines 159-162 and
204-207): `z * conj(z) * exp(1j * order * angle(z))` with `order = 12` (16-APSK)
or `order = 4` (QPSK). -/
noncomputable def nonLinearXform (order : ℕ) (w : ℂ) : ℂ :=
  (w * (starRingEnd ℂ) w) * Complex.exp (Complex.I * (((order : ℝ) * Complex.arg w : ℝ) : ℂ))

/-- Bin `k` of `np.fft.fft(z, 2*len(z))`: the zero-padded DFT
`∑ j, z[j] * exp(-2*pi*1j*j*k/(2*len(z)))`. -/
noncomputable def paddedFft (z : List ℂ) (k : ℕ) : ℂ :=
  ∑ j ∈ Finset.range z.length,
    z.getD j 0 * Complex.exp (-(2 * (Real.pi : ℂ) * Complex.I) * (j : ℂ) * (k : ℂ) / (2 * (z.length : ℂ)))

/-- The power spectrum `PP2 = ZZ * conj(ZZ)` of the transformed signal, of length
`Lfft = 2*len(rx)`.  `ZZ * conj(ZZ)` is the (real) squared modulus; NumPy's
`argmax` on this zero-imaginary complex array orders by the real part, so `PP2`
is modelled as the real list of squared moduli. -/
noncomputable def estimatorPP2 (order : ℕ) (rx : List ℂ) : List ℝ :=
  List.ofFn fun k : Fin (2 * rx.length) =>
    Complex.normSq (paddedFft (rx.map (nonLinearXform order)) (k : ℕ))

/-- Scan of `np.argmax`: keep the first index whose value strictly exceeds the
best seen so far. -/
noncomputable def npArgmaxAux : List ℝ → ℕ → ℕ → ℝ → ℕ
  | [], _, bi, _ => bi
  | v :: rest, i, bi, bv =>
    if bv < v then npArgmaxAux rest (i + 1) i v else npArgmaxAux rest (i + 1) bi bv

/-- `np.argmax`: index of the first occurrence of the maximum. -/
noncomputable def npArgmax (l : List ℝ) : ℕ :=
  npArgmaxAux l 0 0 (l.getD 0 0)

/-- `idx_max`, the maximum-power bin of the estimators. -/
noncomputable def estimatorIdxMax (order : ℕ) (rx : List ℂ) : ℕ :=
  npArgmax (estimatorPP2 order rx)

/-- `vhat2`, the coarse frequency estimate (source lines 170-173 and 215-218):
bins at or beyond `Lfft/2` wrap to negative frequencies; the result is scaled by
`1/(Lfft*order)`. -/
noncomputable def coarseEstimate (order : ℕ) (rx : List ℂ) : ℝ :=
  if 2 * rx.length / 2 ≤ estimatorIdxMax order rx then
    ((estimatorIdxMax order rx : ℝ) - (2 * rx.length : ℝ)) / ((2 * rx.length : ℝ) * (order : ℝ))
  else (estimatorIdxMax order rx : ℝ) / ((2 * rx.length : ℝ) * (order : ℝ))

/-- Common body of `freqOffsetEstimation16Apsk` (order 12) and
`freqOffsetEstimationQpsk` (order 4); the two source functions are identical up
to the constant `order`.  Order of effects mirrors the source: an empty input is
rejected by `np.fft.fft(z, 0)`/`np.argmax` (`valueError`); the neighbor powers
`II1/II2/II3` are read *before* the mode dispatch, and `PP2[idx_max+1]` raises
`indexError` when the peak sits in the last bin (`PP2[idx_max-1]` instead wraps
around, as NumPy negative indexing does); only then is the mode examined, an
unknown mode raising the parameter error. -/
noncomputable def freqOffsetEstimationGen (order : ℕ) (rx : List ℂ) (mode : String) :
    Except DcError ℝ :=
  if rx.length = 0 then Except.error DcError.valueError
  else if 2 * rx.length ≤ estimatorIdxMax order rx + 1 then Except.error DcError.indexError
  else
    let Lfft : ℕ := 2 * rx.length
    let PP2 := estimatorPP2 order rx
    let idx := estimatorIdxMax order rx
    let II1 : ℝ := |PP2.getD ((idx + Lfft - 1) % Lfft) 0|
    let II2 : ℝ := |PP2.getD idx 0|
    let II3 : ℝ := |PP2.getD (idx + 1) 0|
    let II0 : ℝ := max II1 II3
    if mode = "interp_1" then
      Except.ok (coarseEstimate order rx +
        1 / ((order : ℝ) * (Lfft : ℝ)) * (0.5 * (II1 - II3) / (II1 - 2 * II2 + II3)))
    else if mode = "interp_2" then
      Except.ok (coarseEstimate order rx +
        Real.sign (II3 - II1) / (Lfft : ℝ) * II0 / (II2 - II0) / 2 / 2 / Real.pi / (order : ℝ))
    else if mode = "gauss" then
      Except.ok (coarseEstimate order rx +
        (1 / (Lfft : ℝ)) * (Real.log II1 - Real.log II3) /
          (Real.log II1 - 2 * Real.log II2 + Real.log II3) / (2 * (order : ℝ) * Real.pi))
    else if mode = "coarse" then Except.ok (coarseEstimate order rx)
    else Except.error DcError.invalidParameter

/-- `freqOffsetEstimationQpsk(rx, mode)` (source lines 192-234). -/
noncomputable def freqOffsetEstimationQpsk (rx : List ℂ) (mode : String) : Except DcError ℝ :=
  freqOffsetEstimationGen 4 rx mode

/-- `freqOffsetEstimation16Apsk(rx, mode)` (source lines 148-189). -/
noncomputable def freqOffsetEstimation16Apsk (rx : List ℂ) (mode : String) : Except DcError ℝ :=
  freqOffsetEstimationGen 12 rx mode

/-- `noiseVariance(SNR, Eb)` (source lines 67-72): `Eb / 10^(SNR/10)`. -/
noncomputable def noiseVariance (SNR Eb : ℝ) : ℝ :=
  Eb / (10 : ℝ) ^ (SNR / 10)

/-- The keyword arguments of `addNoise`. -/
structure NoiseKwargs where
  SNR : Option ℝ
  Eb : Option ℝ
  N0 : Option ℝ

/-- The deterministic prefix of `addNoise(iqs, **kwargs)` (source lines 75-94):
the computation of the noise variance `N0` from the keyword arguments, before any
random sampling.  Python evaluates `'SNR' and 'Eb' in kwargs.keys()` as
`'Eb' in kwargs.keys()` (the non-empty string `'SNR'` is truthy), so the first
branch is taken whenever `Eb` is present, and `kwargs['SNR']` then raises
`KeyError` if `SNR` is absent. -/
noncomputable def addNoiseN0 (kw : NoiseKwargs) : Except DcError ℝ :=
  if kw.Eb.isSome then
    match kw.SNR, kw.Eb with
    | some snr, some eb => Except.ok (noiseVariance snr eb)
    | none, _ => Except.error DcError.keyError
    | _, none => Except.error DcError.keyError
  else if kw.N0.isSome then Except.ok (kw.N0.getD 0)
  else Except.error DcError.invalidParameter

/-- `bitsToSymbols(bits, M)` (source lines 14-28): `n = int(log2(M))`,
`nsym = int(len(bits)/n)` (a `ZeroDivisionError` when `n = 0`, i.e. `M ≤ 1`),
symbol `i` is `∑ j, bits[i*n+j] * 2^(n-1-j)` (MSB first). -/
def bitsToSymbols (bits : List ℕ) (M : ℕ) : Option (List ℕ) :=
  if Nat.log2 M = 0 then none
  else
    some (List.ofFn fun i : Fin (bits.length / Nat.log2 M) =>
      ∑ j ∈ Finset.range (Nat.log2 M),
        bits.getD ((i : ℕ) * Nat.log2 M + j) 0 * 2 ^ (Nat.log2 M - 1 - j))

/-- Length of Python's plain binary representation of `v` (`len(bin(v)) - 2`):
`1` for `v = 0`, otherwise the bit length of `v`. -/
def binLen (v : ℕ) : ℕ :=
  if v = 0 then 1 else Nat.size v

/-- The `n` bits written for one symbol by `symbolsToBits`:
`format(v, '0{n}b')` zero-pads the representation of `v` to width `n` but never
truncates it, and the loop copies its first `n` characters. -/
def symBits (n : ℕ) (v : ℕ) : List ℕ :=
  List.ofFn fun j : Fin n => v / 2 ^ (max n (binLen v) - 1 - (j : ℕ)) % 2

/-- `symbolsToBits(syms, M)` (source lines 45-57): `n = int(log2(M))` bits per
symbol, MSB first. -/
def symbolsToBits (syms : List ℕ) (M : ℕ) : List ℕ :=
  (syms.map (symBits (Nat.log2 M))).flatten

/-- One unnormalized tap of `rcosdesign` (source lines 349-381), at sample index
`x` of `sample_num`: `t = (x - N/2) * (Ts/sps)`.  `t` and the singular-point
branch conditions are exact rational comparisons, kept in `ℚ`; the tap values are
real.  Any shape other than `'sqrt'`/`'normal'` leaves the zero initialisation in
place. -/
noncomputable def rcosTap (alpha : ℚ) (N : ℕ) (Ts : ℚ) (sps : ℕ) (shape : String) (x : ℕ) : ℝ :=
  let tq : ℚ := (((x : ℚ)) - (N : ℚ) / 2) * (Ts / (sps : ℚ))
  let t : ℝ := (tq : ℝ)
  let Tsr : ℝ := ((Ts : ℚ) : ℝ)
  let a : ℝ := ((alpha : ℚ) : ℝ)
  if shape = "sqrt" then
    if tq = 0 then 1 - a + 4 * a / Real.pi
    else if alpha ≠ 0 ∧ tq = Ts / (4 * alpha) then
      (a / Real.sqrt 2) * ((1 + 2 / Real.pi) * Real.sin (Real.pi / (4 * a)) +
        (1 - 2 / Real.pi) * Real.cos (Real.pi / (4 * a)))
    else if alpha ≠ 0 ∧ tq = -(Ts / (4 * alpha)) then
      (a / Real.sqrt 2) * ((1 + 2 / Real.pi) * Real.sin (Real.pi / (4 * a)) +
        (1 - 2 / Real.pi) * Real.cos (Real.pi / (4 * a)))
    else
      (Real.sin (Real.pi * t * (1 - a) / Tsr) +
        4 * a * (t / Tsr) * Real.cos (Real.pi * t * (1 + a) / Tsr)) /
        (Real.pi * t * (1 - (4 * a * t / Tsr) * (4 * a * t / Tsr)) / Tsr)
  else if shape = "normal" then
    if tq = 0 then 1
    else if alpha ≠ 0 ∧ tq = Ts / (2 * alpha) then
      (Real.pi / 4) * (Real.sin (Real.pi * t / Tsr) / (Real.pi * t / Tsr))
    else if alpha ≠ 0 ∧ tq = -(Ts / (2 * alpha)) then
      (Real.pi / 4) * (Real.sin (Real.pi * t / Tsr) / (Real.pi * t / Tsr))
    else
      (Real.sin (Real.pi * t / Tsr) / (Real.pi * t / Tsr)) *
        (Real.cos (Real.pi * a * t / Tsr) / (1 - ((2 * a * t / Tsr) * (2 * a * t / Tsr))))
  else 0

/-- `rcosdesign(alpha, span, sps, Ts, shape)` (source lines 321-386): `N = span*sps`
taps are computed, the first tap is appended (length `N+1`), the vector is scaled
to unit energy by `h / sqrt(h @ h)`, and the centered time axis
`(arange(N+1) - N/2) * Ts/sps` is returned alongside. -/
noncomputable def rcosdesign (alpha : ℚ) (span sps : ℕ) (Ts : ℚ) (shape : String) :
    List ℝ × List ℝ :=
  let N := span * sps
  let hraw := (List.ofFn fun x : Fin N => rcosTap alpha N Ts sps shape (x : ℕ)) ++
    [rcosTap alpha N Ts sps shape 0]
  let energy := (hraw.map fun v => v * v).sum
  (hraw.map fun v => v / Real.sqrt energy,
   List.ofFn fun i : Fin (N + 1) =>
     (((i : ℕ) : ℝ) - (N : ℝ) / 2) * (((Ts : ℚ) : ℝ) / (sps : ℝ)))

theorem length_convolve {α : Type} [CommRing α] (x h : List α) :
    (convolve x h).length = x.length + h.length - 1 := by
  simp [convolve]

theorem length_trimEnds {α : Type} (l : List α) (p : ℕ) :
    (trimEnds l p).length = l.length - 2 * p := by
  simp [trimEnds]
  omega

theorem length_zeroEdges {α : Type} [Zero α] (l : List α) (p : ℕ) :
    (zeroEdges l p).length = l.length := by
  simp [zeroEdges]

theorem length_extendLinear {α : Type} [CommRing α] (x : List α) (pad : ℕ) :
    (extendLinear x pad).length = pad + x.length + pad := by
  simp [extendLinear]
  ring

theorem length_createDerivativeFilterTaps (N : ℕ) (Tsamp : ℚ) :
    (createDerivativeFilterTaps N Tsamp).length = N := by
  simp [createDerivativeFilterTaps]

theorem length_fractionalDelayCoeffs (T dT : ℚ) (L : ℕ) :
    (fractionalDelayCoeffs T dT L).length = 2 * L + 1 := by
  simp [fractionalDelayCoeffs]

/-- C1 (counterexample): the claim quantifies over every non-empty input, but on
the one-sample signal `[5]` (with the admissible length `N = 3`)
`derivativeFilter` reads `x[1]` while building the boundary extrapolation and
raises `IndexError` instead of returning an array of length 1. -/
theorem c1_counterexample : derivativeFilter [(5 : ℝ)] 3 1 = none := by
  norm_num [derivativeFilter]

/-- C1 (amended): edge-corrected filtering preserves the input length once the
input has at least two samples (so the linear extrapolation of
`derivativeFilter`/`fractionalDelayFilter` is defined) and the filter length is
admissible (`(N+1) % 4 == 0` for the derivative filters; odd `N ≥ 3` for the
fractional-delay filter); `derivativeFilter2` needs only a non-empty input. -/
theorem c1_length_preservation (N : ℕ) (Tsamp gamma : ℚ) (zero_edge : Bool) :
    (∀ x : List ℝ, (N + 1) % 4 = 0 → 2 ≤ x.length →
      ∃ y, derivativeFilter x N Tsamp = some y ∧ y.length = x.length) ∧
    (∀ x : List ℝ, (N + 1) % 4 = 0 → 1 ≤ x.length →
      ∃ y, derivativeFilter2 x N Tsamp zero_edge = some y ∧ y.length = x.length) ∧
    (∀ x : List ℝ, N % 2 = 1 → 3 ≤ N → 2 ≤ x.length →
      ∃ y, fractionalDelayFilter x gamma N = some y ∧ y.length = x.length) := by
  refine ⟨fun x hN hx => ?_, fun x hN hx => ?_, fun x hodd hN hx => ?_⟩
  · refine ⟨_, by rw [derivativeFilter, if_neg (by omega), if_neg (by omega)], ?_⟩
    rw [length_trimEnds, length_convolve, length_extendLinear,
      length_createDerivativeFilterTaps]
    omega
  · refine ⟨_, by rw [derivativeFilter2, if_neg (by omega), if_neg (by omega)], ?_⟩
    cases zero_edge with
    | false =>
      simp only [Bool.false_eq_true, if_false]
      rw [length_trimEnds, length_convolve, length_createDerivativeFilterTaps]
      omega
    | true =>
      simp only [if_true]
      rw [length_zeroEdges, length_trimEnds, length_convolve,
        length_createDerivativeFilterTaps]
      omega
  · refine ⟨_, by rw [fractionalDelayFilter, if_neg (by omega), if_neg (by omega)], ?_⟩
    rw [length_trimEnds, length_convolve, length_extendLinear,
      length_fractionalDelayCoeffs]
    omega

/-- Witness for C1 (amended) on the two-sample signal `[0, 1]` with `N = 3`. -/
theorem c1_witness :
    (∃ y, derivativeFilter [(0 : ℝ), 1] 3 1 = some y ∧ y.length = 2) ∧
    (∃ y, derivativeFilter2 [(0 : ℝ), 1] 3 1 true = some y ∧ y.length = 2) ∧
    (∃ y, fractionalDelayFilter [(0 : ℝ), 1] (1/2) 3 = some y ∧ y.length = 2) :=
  ⟨(c1_length_preservation 3 1 (1/2) true).1 [(0 : ℝ), 1] (by decide) (by decide),
   (c1_length_preservation 3 1 (1/2) true).2.1 [(0 : ℝ), 1] (by decide) (by decide),
   (c1_length_preservation 3 1 (1/2) true).2.2 [(0 : ℝ), 1] (by decide) (by decide) (by decide)⟩

theorem sumsq_map_div (l : List ℝ) (s : ℝ) :
    ((l.map fun v => v / s).map fun v => v * v).sum = (l.map fun v => v * v).sum / (s * s) := by
  induction l with
  | nil => simp
  | cons a t ih =>
    simp only [List.map_cons, List.sum_cons, ih]
    ring

/-- C3: for valid parameters (`alpha` in `[0,1]`, positive `span` and `sps` with
`span*sps` even — the MATLAB `rcosdesign` calling convention this function
mirrors — and shape `'sqrt'` or `'normal'`), the returned taps have exact unit
energy: the center tap keeps the raw energy strictly positive, and the final
division by `sqrt(h @ h)` makes the sum of squared taps equal to 1. -/
theorem c3_unit_energy (alpha : ℚ) (span sps : ℕ) (Ts : ℚ) (shape : String)
    (h0 : 0 ≤ alpha) (h1 : alpha ≤ 1) (hspan : 1 ≤ span) (hsps : 1 ≤ sps)
    (heven : (span * sps) % 2 = 0)
    (hshape : shape = "sqrt" ∨ shape = "normal") :
    ((rcosdesign alpha span sps Ts shape).1.map fun v => v * v).sum = 1 := by
  have hNpos : 0 < span * sps := Nat.mul_pos hspan hsps
  have hc : span * sps / 2 < span * sps := Nat.div_lt_self hNpos (by norm_num)
  have h2 : ((span * sps / 2 : ℕ) : ℚ) = ((span * sps : ℕ) : ℚ) / 2 := by
    obtain ⟨m, hm⟩ : ∃ m, span * sps = 2 * m := ⟨span * sps / 2, by omega⟩
    rw [hm, Nat.mul_div_cancel_left _ (by norm_num)]
    push_cast
    ring
  have htq : (((span * sps / 2 : ℕ) : ℚ) - ((span * sps : ℕ) : ℚ) / 2) * (Ts / (sps : ℚ)) = 0 := by
    rw [h2]
    ring
  have ha0 : (0 : ℝ) ≤ ((alpha : ℚ) : ℝ) := by exact_mod_cast h0
  have hπ := Real.pi_pos
  have hcent : 1 ≤ rcosTap alpha (span * sps) Ts sps shape (span * sps / 2) := by
    rcases hshape with h | h <;> subst h
    · simp only [rcosTap]
      rw [if_pos (by trivial), if_pos htq]
      have key : ((alpha : ℚ) : ℝ) ≤ 4 * ((alpha : ℚ) : ℝ) / Real.pi := by
        rw [le_div_iff₀ hπ]
        nlinarith [Real.pi_le_four]
      linarith
    · simp only [rcosTap]
      rw [if_neg (by decide), if_pos (by trivial), if_pos htq]
  simp only [rcosdesign]
  set f : ℕ → ℝ := fun x => rcosTap alpha (span * sps) Ts sps shape x with hf
  set E : ℝ := (((List.ofFn fun x : Fin (span * sps) => f (x : ℕ)) ++ [f 0]).map
    fun v => v * v).sum with hE
  have hEsum : E = (∑ i : Fin (span * sps), f (i : ℕ) * f (i : ℕ)) + f 0 * f 0 := by
    rw [hE]
    simp [List.map_ofFn, List.sum_ofFn, Function.comp]
  have hE1 : (1 : ℝ) ≤ E := by
    rw [hEsum]
    have hterm : (1 : ℝ) ≤ f (span * sps / 2) * f (span * sps / 2) := by
      nlinarith [hcent]
    have hle : f (span * sps / 2) * f (span * sps / 2) ≤
        ∑ i : Fin (span * sps), f (i : ℕ) * f (i : ℕ) := by
      have h := @Finset.single_le_sum (Fin (span * sps)) ℝ _
        (fun i : Fin (span * sps) => f (i : ℕ) * f (i : ℕ)) Finset.univ
        (fun i _ => mul_self_nonneg _) ⟨span * sps / 2, hc⟩ (Finset.mem_univ _)
      simpa using h
    nlinarith [mul_self_nonneg (f 0)]
  have hEpos : (0 : ℝ) < E := lt_of_lt_of_le one_pos hE1
  rw [sumsq_map_div, Real.mul_self_sqrt (le_of_lt hEpos), ← hE]
  exact div_self (ne_of_gt hEpos)

/-- Witness for C3 at `alpha = 0`, `span = 2`, `sps = 1`, `Ts = 1`, shape `'sqrt'`. -/
theorem c3_witness :
    ((rcosdesign 0 2 1 1 "sqrt").1.map fun v => v * v).sum = 1 :=
  c3_unit_energy 0 2 1 1 "sqrt" (by norm_num) (by norm_num) (by norm_num) (by norm_num)
    (by norm_num) (Or.inl rfl)

theorem sum_two_pow (n : ℕ) : ∑ j ∈ Finset.range n, 2 ^ j = 2 ^ n - 1 := by
  induction n with
  | zero => simp
  | succ m ih =>
    rw [Finset.sum_range_succ, ih]
    have h1 : 1 ≤ 2 ^ m := Nat.one_le_two_pow
    have h2 : 2 ^ (m + 1) = 2 * 2 ^ m := by ring
    omega

/-- The MSB-first value of a 0/1 chunk of length `n` is below `2^n`. -/
theorem chunkVal_lt (c : List ℕ) (hb : ∀ b ∈ c, b ≤ 1) :
    (∑ i ∈ Finset.range c.length, c.getD i 0 * 2 ^ (c.length - 1 - i)) < 2 ^ c.length := by
  have hle : (∑ i ∈ Finset.range c.length, c.getD i 0 * 2 ^ (c.length - 1 - i)) ≤
      ∑ i ∈ Finset.range c.length, 2 ^ (c.length - 1 - i) := by
    apply Finset.sum_le_sum
    intro i hi
    have hmem : c.getD i 0 ∈ c := by
      rw [List.getD_eq_getElem _ _ (Finset.mem_range.mp hi)]
      exact List.getElem_mem _
    have := hb _ hmem
    nlinarith [Nat.one_le_two_pow (n := c.length - 1 - i)]
  have hrefl : (∑ i ∈ Finset.range c.length, 2 ^ (c.length - 1 - i)) =
      ∑ i ∈ Finset.range c.length, 2 ^ i := Finset.sum_range_reflect (fun i => 2 ^ i) c.length
  rw [hrefl, sum_two_pow] at hle
  have := Nat.one_le_two_pow (n := c.length)
  omega

/-- Extracting binary digit `n-1-j` (MSB-first position `j`) from the value of a
0/1 chunk returns the chunk entry. -/
theorem chunk_digit (c : List ℕ) (hb : ∀ b ∈ c, b ≤ 1) :
    ∀ j, j < c.length →
      (∑ i ∈ Finset.range c.length, c.getD i 0 * 2 ^ (c.length - 1 - i)) /
        2 ^ (c.length - 1 - j) % 2 = c.getD j 0 := by
  induction c with
  | nil =>
    intro j hj
    simp at hj
  | cons a t ih =>
    intro j hj
    have hsplit : (∑ i ∈ Finset.range (a :: t).length,
        (a :: t).getD i 0 * 2 ^ ((a :: t).length - 1 - i)) =
        (∑ i ∈ Finset.range t.length, t.getD i 0 * 2 ^ (t.length - 1 - i)) +
          a * 2 ^ t.length := by
      rw [List.length_cons, Finset.sum_range_succ']
      congr 1
      apply Finset.sum_congr rfl
      intro i hi
      rw [List.getD_cons_succ]
      congr 2
      omega
    rw [hsplit]
    have htval := chunkVal_lt t (fun b hbm => hb b (List.mem_cons_of_mem a hbm))
    match j with
    | 0 =>
      have hexp : (a :: t).length - 1 - 0 = t.length := by simp
      rw [hexp, Nat.add_mul_div_right _ _ (by positivity : 0 < 2 ^ t.length),
        Nat.div_eq_of_lt htval]
      have ha : a ≤ 1 := hb a (List.mem_cons_self a t)
      simp only [List.getD_cons_zero]
      omega
    | k + 1 =>
      have hk : k < t.length := by
        have := hj
        simp only [List.length_cons] at this
        omega
      have hexp : (a :: t).length - 1 - (k + 1) = t.length - 1 - k := by
        simp only [List.length_cons]
        omega
      rw [hexp]
      have hpow : 2 ^ t.length = 2 ^ (k + 1) * 2 ^ (t.length - 1 - k) := by
        rw [← pow_add]
        congr 1
        omega
      rw [hpow, ← mul_assoc, Nat.add_mul_div_right _ _
        (by positivity : 0 < 2 ^ (t.length - 1 - k))]
      have heven : (∑ i ∈ Finset.range t.length, t.getD i 0 * 2 ^ (t.length - 1 - i)) /
          2 ^ (t.length - 1 - k) + a * 2 ^ (k + 1) =
          (∑ i ∈ Finset.range t.length, t.getD i 0 * 2 ^ (t.length - 1 - i)) /
          2 ^ (t.length - 1 - k) + (a * 2 ^ k) * 2 := by ring
      rw [heven, Nat.add_mul_mod_self_right, List.getD_cons_succ]
      exact ih (fun b hbm => hb b (List.mem_cons_of_mem a hbm)) k hk

/-- `symBits` inverts the MSB-first chunk value of a non-empty 0/1 chunk. -/
theorem symBits_chunkVal (n : ℕ) (hn : 0 < n) (c : List ℕ) (hc : c.length = n)
    (hb : ∀ b ∈ c, b ≤ 1) :
    symBits n (∑ i ∈ Finset.range n, c.getD i 0 * 2 ^ (n - 1 - i)) = c := by
  subst hc
  set v := ∑ i ∈ Finset.range c.length, c.getD i 0 * 2 ^ (c.length - 1 - i) with hv
  have hval : v < 2 ^ c.length := chunkVal_lt c hb
  have hbl : binLen v ≤ c.length := by
    unfold binLen
    by_cases h : v = 0
    · rw [if_pos h]
      omega
    · rw [if_neg h]
      exact Nat.size_le.mpr hval
  have hmax : max c.length (binLen v) = c.length := max_eq_left hbl
  unfold symBits
  rw [hmax]
  apply List.ext_getElem
  · simp
  · intro i h1 h2
    rw [List.getElem_ofFn, ← List.getD_eq_getElem c 0 h2]
    exact chunk_digit c hb i h2

/-- Splitting the leading chunk of length `n` off the symbol computation. -/
theorem bits_chunks_append (n : ℕ) (hn : 0 < n) (c rest : List ℕ) (hc : c.length = n) :
    (List.ofFn fun i : Fin ((c ++ rest).length / n) =>
      ∑ j ∈ Finset.range n, (c ++ rest).getD ((i : ℕ) * n + j) 0 * 2 ^ (n - 1 - j)) =
    (∑ j ∈ Finset.range n, c.getD j 0 * 2 ^ (n - 1 - j)) ::
    (List.ofFn fun i : Fin (rest.length / n) =>
      ∑ j ∈ Finset.range n, rest.getD ((i : ℕ) * n + j) 0 * 2 ^ (n - 1 - j)) := by
  have hlen : (c ++ rest).length / n = rest.length / n + 1 := by
    rw [List.length_append, hc, Nat.add_comm, Nat.add_div_right _ hn]
  apply List.ext_getElem
  · simp only [List.length_ofFn, List.length_cons]
    exact hlen
  · intro i h1 h2
    rw [List.getElem_ofFn]
    cases i with
    | zero =>
      simp only [List.getElem_cons_zero, Fin.val_mk]
      apply Finset.sum_congr rfl
      intro j hj
      have hj' : j < c.length := by
        rw [hc]
        exact Finset.mem_range.mp hj
      rw [show 0 * n + j = j by ring, List.getD_append _ _ _ _ hj']
    | succ k =>
      simp only [List.getElem_cons_succ]
      rw [List.getElem_ofFn]
      simp only [Fin.val_mk]
      apply Finset.sum_congr rfl
      intro j hj
      have hge : c.length ≤ (k + 1) * n + j := by
        rw [hc]
        have hx : n ≤ (k + 1) * n := Nat.le_mul_of_pos_left n (by omega)
        omega
      rw [List.getD_append_right _ _ _ _ hge]
      congr 2
      rw [hc]
      have hx : (k + 1) * n = k * n + n := by ring
      omega

/-- The bit/symbol round trip, chunk by chunk. -/
theorem roundtrip_core (n : ℕ) (hn : 0 < n) :
    ∀ (s : ℕ) (bits : List ℕ), bits.length = s * n → (∀ b ∈ bits, b ≤ 1) →
    ((List.ofFn fun i : Fin (bits.length / n) =>
        ∑ j ∈ Finset.range n, bits.getD ((i : ℕ) * n + j) 0 * 2 ^ (n - 1 - j)).map
      (symBits n)).flatten = bits := by
  intro s
  induction s with
  | zero =>
    intro bits hlen hb
    have hnil : bits = [] := List.length_eq_zero.mp (by omega)
    subst hnil
    simp
  | succ m ih =>
    intro bits hlen hb
    have hx : (m + 1) * n = m * n + n := by ring
    have htl : (bits.take n).length = n := by
      rw [List.length_take]
      omega
    have hdl : (bits.drop n).length = m * n := by
      rw [List.length_drop]
      omega
    have hsplit : bits = bits.take n ++ bits.drop n := (List.take_append_drop n bits).symm
    rw [hsplit, bits_chunks_append n hn _ _ htl, List.map_cons, List.flatten_cons,
      symBits_chunkVal n hn (bits.take n) htl (fun b hbm => hb b (List.take_subset n bits hbm)),
      ih (bits.drop n) hdl (fun b hbm => hb b (List.drop_subset n bits hbm))]

/-- C7 (counterexample): `M = 1` is a power of two (`2^0`), and the empty bit
sequence has length a multiple of `log2(1) = 0`; but `bitsToSymbols(bits, 1)`
computes `int(len(bits)/0)` and dies with `ZeroDivisionError`, so the round trip
does not return the bits. -/
theorem c7_counterexample :
    (bitsToSymbols [] 1).map (fun syms => symbolsToBits syms 1) ≠ some [] := by
  simp [bitsToSymbols, Nat.log2]

/-- C7 (amended): for `M = 2^k` with `k ≥ 1` and any 0/1 bit sequence whose
length is a multiple of `k = log2 M`, `symbolsToBits(bitsToSymbols(bits, M), M)`
returns the original bits (MSB-first grouping and its inverse). -/
theorem c7_roundtrip (k : ℕ) (hk : 1 ≤ k) (bits : List ℕ) (hb : ∀ b ∈ bits, b ≤ 1)
    (hlen : k ∣ bits.length) :
    (bitsToSymbols bits (2 ^ k)).map (fun syms => symbolsToBits syms (2 ^ k)) = some bits := by
  have hlog : Nat.log2 (2 ^ k) = k := by
    rw [Nat.log2_eq_log_two]
    exact Nat.log_pow (by norm_num) k
  unfold bitsToSymbols symbolsToBits
  simp only [hlog]
  rw [if_neg (by omega)]
  simp only [Option.map_some']
  exact congrArg some
    (roundtrip_core k (by omega) (bits.length / k) bits (Nat.div_mul_cancel hlen).symm hb)

/-- Witness for C7 (amended) at `M = 4`, `bits = [1, 0]`. -/
theorem c7_witness :
    (bitsToSymbols [1, 0] (2 ^ 2)).map (fun syms => symbolsToBits syms (2 ^ 2)) = some [1, 0] :=
  c7_roundtrip 2 (by norm_num) [1, 0] (by decide) (by decide)

/-- C6 (counterexample): with `Eb` supplied but neither `SNR` nor `N0` — a call
that "contains neither the key N0 nor both keys SNR and Eb" — `addNoise` takes
the `'SNR' and 'Eb' in kwargs.keys()` branch (which only tests `Eb`) and
`kwargs['SNR']` raises `KeyError`, not the designated parameter error. -/
theorem c6_counterexample :
    addNoiseN0 ⟨none, some 1, none⟩ = Except.error DcError.keyError ∧
    addNoiseN0 ⟨none, some 1, none⟩ ≠ Except.error DcError.invalidParameter := by
  constructor
  · rfl
  · simp [addNoiseN0]

/-- C6 (amended): a call whose keyword arguments contain neither `Eb` nor `N0`
fails with the designated parameter error; when `Eb` is present without `SNR`
the call instead fails with `KeyError` before the parameter check is reached. -/
theorem c6_missing_keys (kw : NoiseKwargs) (hEb : kw.Eb = none) (hN0 : kw.N0 = none) :
    addNoiseN0 kw = Except.error DcError.invalidParameter := by
  simp [addNoiseN0, hEb, hN0]

/-- Witness for C6 (amended): `SNR` alone is not a valid noise specification. -/
theorem c6_witness :
    addNoiseN0 ⟨some 1, none, none⟩ = Except.error DcError.invalidParameter :=
  c6_missing_keys ⟨some 1, none, none⟩ rfl rfl

theorem getD_ofFn {α : Type} {n : ℕ} (f : Fin n → α) (i : ℕ) (h : i < n) (d : α) :
    (List.ofFn f).getD i d = f ⟨i, h⟩ := by
  rw [List.getD_eq_getElem _ _ (by simpa using h)]
  simp

theorem cos_two_pi_sub (y : ℝ) : Real.cos (2 * Real.pi - y) = Real.cos y := by
  rw [show 2 * Real.pi - y = -(y - 2 * Real.pi) by ring, Real.cos_neg, Real.cos_sub_two_pi]

theorem cos_four_pi_sub (y : ℝ) : Real.cos (4 * Real.pi - y) = Real.cos y := by
  rw [show 4 * Real.pi - y = -(y - 2 * Real.pi - 2 * Real.pi) by ring, Real.cos_neg,
    Real.cos_sub_two_pi, Real.cos_sub_two_pi]

/-- The (symmetric) Blackman window is symmetric about its center. -/
theorem blackmanWin_symm (N : ℕ) (hN : 2 ≤ N) (i : ℕ) (hi : i < N) :
    blackmanWin N (N - 1 - i) = blackmanWin N i := by
  have hne : ((N : ℝ) - 1) ≠ 0 := by
    have : (2 : ℝ) ≤ (N : ℝ) := by exact_mod_cast hN
    nlinarith
  have hc : ((N - 1 - i : ℕ) : ℝ) = (N : ℝ) - 1 - (i : ℝ) := by
    have h1 : N - 1 - i = N - (1 + i) := by omega
    rw [h1, Nat.cast_sub (by omega)]
    push_cast
    ring
  unfold blackmanWin
  rw [hc,
    show 2 * Real.pi * ((N : ℝ) - 1 - (i : ℝ)) / ((N : ℝ) - 1) =
      2 * Real.pi - 2 * Real.pi * (i : ℝ) / ((N : ℝ) - 1) by field_simp; ring,
    show 4 * Real.pi * ((N : ℝ) - 1 - (i : ℝ)) / ((N : ℝ) - 1) =
      4 * Real.pi - 4 * Real.pi * (i : ℝ) / ((N : ℝ) - 1) by field_simp; ring,
    cos_two_pi_sub, cos_four_pi_sub]

theorem sinc_neg (y : ℝ) :
    Real.sin (-y * Real.pi) / (-y * Real.pi) = Real.sin (y * Real.pi) / (y * Real.pi) := by
  rw [show -y * Real.pi = -(y * Real.pi) by ring, Real.sin_neg, neg_div_neg_eq]

theorem neg_one_zpow_inv (n : ℤ) : ((-1 : ℝ) ^ n)⁻¹ = (-1 : ℝ) ^ n := by
  rcases Int.even_or_odd n with h | h
  · rw [h.neg_one_zpow]
    norm_num
  · rw [h.neg_one_zpow]
    norm_num

/-- C4 (counterexample): for `T = 1`, `dT = 1/2`, `L = 1` the fractional-delay
taps are a *shifted* sinc and are not symmetric: tap 0 is `sin(-pi/2)/(-pi/2) =
2/pi > 0` while tap `2L - 0 = 2` is `sin(3*pi/2)/(3*pi/2) = -2/(3*pi) < 0`. -/
theorem c4_counterexample :
    (fractionalDelayCoeffs 1 (1/2) 1).getD 0 0 ≠ (fractionalDelayCoeffs 1 (1/2) 1).getD 2 0 := by
  unfold fractionalDelayCoeffs
  rw [getD_ofFn _ 0 (by norm_num), getD_ofFn _ 2 (by norm_num)]
  norm_num
  have hs1 : Real.sin (1 / 2 * Real.pi) = 1 := by
    rw [show (1 : ℝ) / 2 * Real.pi = Real.pi / 2 by ring, Real.sin_pi_div_two]
  have hs2 : Real.sin (3 / 2 * Real.pi) = -1 := by
    rw [show (3 : ℝ) / 2 * Real.pi = -(Real.pi / 2) + 2 * Real.pi by ring,
      Real.sin_add_two_pi, Real.sin_neg, Real.sin_pi_div_two]
  rw [hs1, hs2]
  have hπ := Real.pi_pos
  have h1 : (-1 : ℝ) / (3 / 2 * Real.pi) < 0 :=
    div_neg_of_neg_of_pos (by norm_num) (by positivity)
  have h2 : (0 : ℝ) < (1 : ℝ) / (1 / 2 * Real.pi) := by positivity
  intro heq
  rw [heq] at h2
  linarith

/-- C4 (amended): the derivative-filter taps are antisymmetric about the center
for every admissible length, exactly as claimed; the fractional-delay taps
`fractionalDelayCoeffs(T, dT, L)` are symmetric about the center whenever the
normalized fractional delay `dT/T` is zero (e.g. `dT = 0`).  Symmetry does not
hold for arbitrary `(T, dT, L)`: the shifted sinc at `(1, 1/2, 1)` is a
counterexample. -/
theorem c4_tap_symmetry :
    (∀ (N : ℕ) (Tsamp : ℚ), (N + 1) % 4 = 0 → ∀ i, i < N →
      (createDerivativeFilterTaps N Tsamp).getD i 0 =
        -((createDerivativeFilterTaps N Tsamp).getD (N - 1 - i) 0)) ∧
    (∀ (T dT : ℚ) (L : ℕ), dT / T = 0 → ∀ i, i ≤ 2 * L →
      (fractionalDelayCoeffs T dT L).getD i 0 =
        (fractionalDelayCoeffs T dT L).getD (2 * L - i) 0) := by
  constructor
  · intro N Tsamp hN i hi
    have hN3 : 3 ≤ N := by omega
    unfold createDerivativeFilterTaps
    rw [getD_ofFn _ i hi, getD_ofFn _ (N - 1 - i) (by omega)]
    simp only [Fin.val_mk]
    have hc : ((N - 1 - i : ℕ) : ℤ) = (N : ℤ) - 1 - (i : ℤ) := by omega
    have hm : (N : ℤ) - 1 = 2 * (((N : ℤ) - 1) / 2) := by omega
    have hnd : ((N - 1 - i : ℕ) : ℤ) - ((N : ℤ) - 1) / 2 = -((i : ℤ) - ((N : ℤ) - 1) / 2) := by
      omega
    rw [hnd, blackmanWin_symm N (by omega) i hi]
    by_cases hz : (i : ℤ) - ((N : ℤ) - 1) / 2 = 0
    · rw [if_pos hz, if_pos (by omega)]
      ring
    · rw [if_neg hz, if_neg (by omega)]
      rw [zpow_neg, neg_one_zpow_inv, Int.cast_neg, div_neg]
      ring
  · intro T dT L h0 i hi
    unfold fractionalDelayCoeffs
    rw [getD_ofFn _ i (by omega), getD_ofFn _ (2 * L - i) (by omega)]
    simp only [Fin.val_mk, h0, add_zero]
    have hc : ((2 * L - i : ℕ) : ℚ) = 2 * (L : ℚ) - (i : ℚ) := by
      rw [Nat.cast_sub (by omega)]
      push_cast
      ring
    have hq : ((2 * L - i : ℕ) : ℚ) - (L : ℚ) = -((i : ℚ) - (L : ℚ)) := by
      rw [hc]
      ring
    rw [hq]
    by_cases hz : (i : ℚ) - (L : ℚ) = 0
    · rw [if_pos hz, if_pos (by rw [hz]; ring)]
    · rw [if_neg hz, if_neg (by simp only [neg_eq_zero]; exact hz), Rat.cast_neg, sinc_neg]

/-- Witness for C4 (amended) at `N = 3` and at `(T, dT, L) = (1, 0, 1)`. -/
theorem c4_witness :
    (createDerivativeFilterTaps 3 1).getD 0 0 = -((createDerivativeFilterTaps 3 1).getD 2 0) ∧
    (fractionalDelayCoeffs 1 0 1).getD 0 0 = (fractionalDelayCoeffs 1 0 1).getD 2 0 :=
  ⟨c4_tap_symmetry.1 3 1 (by decide) 0 (by decide),
   c4_tap_symmetry.2 1 0 1 (by norm_num) 0 (by norm_num)⟩

theorem getD_map_zero {α β : Type} [Zero α] [Zero β] (f : α → β) (hf : f 0 = 0)
    (l : List α) (n : ℕ) : (l.map f).getD n 0 = f (l.getD n 0) := by
  rw [List.getD_eq_getD_get?, List.getD_eq_getD_get?, List.get?_map]
  cases l.get? n <;> simp [hf]

theorem map_trimEnds {α β : Type} (f : α → β) (l : List α) (p : ℕ) :
    (trimEnds l p).map f = trimEnds (l.map f) p := by
  simp [trimEnds, List.map_take, List.map_drop]

theorem map_zeroEdges (f : ℂ → ℝ) (hf0 : f 0 = 0) (l : List ℂ) (p : ℕ) :
    (zeroEdges l p).map f = zeroEdges (l.map f) p := by
  apply List.ext_getElem
  · simp [zeroEdges]
  · intro i h1 h2
    simp only [List.getElem_map, zeroEdges, List.getElem_ofFn, Fin.val_mk, List.length_map,
      List.get_eq_getElem, apply_ite f, hf0, Fin.coe_cast]

theorem map_lin_convolve (g : ℂ → ℝ) (hg0 : g 0 = 0) (hadd : ∀ a b, g (a + b) = g a + g b)
    (hmul : ∀ (z : ℂ) (r : ℝ), g (z * (r : ℂ)) = g z * r) (x : List ℂ) (d : List ℝ) :
    (convolve x (d.map (fun t : ℝ => (t : ℂ)))).map g = convolve (x.map g) d := by
  have hsum : ∀ (m : ℕ) (F : ℕ → ℂ),
      g (∑ i ∈ Finset.range m, F i) = ∑ i ∈ Finset.range m, g (F i) := by
    intro m F
    induction m with
    | zero => simpa using hg0
    | succ p ih => rw [Finset.sum_range_succ, Finset.sum_range_succ, hadd, ih]
  apply List.ext_getElem
  · simp [convolve]
  · intro i h1 h2
    simp only [List.getElem_map, convolve, List.getElem_ofFn, Fin.val_mk]
    rw [hsum]
    apply Finset.sum_congr rfl
    intro i' hi'
    rw [getD_map_zero (fun t : ℝ => (t : ℂ)) (by simp) d, hmul,
      getD_map_zero g hg0 x]

theorem map_re_convolve (x : List ℂ) (d : List ℝ) :
    (convolve x (d.map (fun t : ℝ => (t : ℂ)))).map Complex.re = convolve (x.map Complex.re) d :=
  map_lin_convolve Complex.re Complex.zero_re Complex.add_re
    (fun z r => by simp [Complex.mul_re]) x d

theorem map_im_convolve (x : List ℂ) (d : List ℝ) :
    (convolve x (d.map (fun t : ℝ => (t : ℂ)))).map Complex.im = convolve (x.map Complex.im) d :=
  map_lin_convolve Complex.im Complex.zero_im Complex.add_im
    (fun z r => by simp [Complex.mul_im]) x d

theorem optionMap_re_getD (o : Option ℂ) : (o.map Complex.re).getD 0 = (o.getD 0).re := by
  cases o <;> simp

theorem map_re_extendLinear (x : List ℂ) (pad : ℕ) :
    (extendLinear x pad).map Complex.re = extendLinear (x.map Complex.re) pad := by
  unfold extendLinear
  simp only [List.map_append, List.map_ofFn, List.length_map]
  congr 1
  congr 1
  · congr 1
    funext j
    simp only [Function.comp_apply]
    rw [getD_map_zero Complex.re Complex.zero_re, getD_map_zero Complex.re Complex.zero_re]
    simp [Complex.sub_re, Complex.mul_re]
  · congr 1
    funext j
    simp only [Function.comp_apply]
    simp [getD_map_zero Complex.re Complex.zero_re, Complex.add_re, Complex.sub_re,
      Complex.mul_re, optionMap_re_getD]

theorem map2_some {α β γ : Type} (f : α → β → γ) (a : α) (b : β) :
    Option.map₂ f (some a) (some b) = some (f a b) :=
  rfl

theorem zipWith_re_im (l : List ℂ) :
    List.zipWith (fun (a b : ℝ) => (a : ℂ) + (b : ℂ) * Complex.I)
      (l.map Complex.re) (l.map Complex.im) = l := by
  induction l with
  | nil => rfl
  | cons a t ih => simp [ih, Complex.re_add_im]

/-- C10: `derivativeFilter` and `fractionalDelayFilter` write the signal into a
real `np.zeros` buffer, so their output is a function of the real parts alone
(the imaginary component is discarded — on recent NumPy the assignment fails
outright); `derivativeFilter2` convolves the complex samples with the
(real) taps directly, so its output carries the filtered real parts in its real
component and the filtered imaginary parts in its imaginary component. -/
theorem c10_complex_handling :
    (∀ (x : List ℂ) (N : ℕ) (Tsamp : ℚ),
      derivativeFilterC x N Tsamp = derivativeFilter (x.map Complex.re) N Tsamp) ∧
    (∀ (x : List ℂ) (gamma : ℚ) (N : ℕ),
      fractionalDelayFilterC x gamma N = fractionalDelayFilter (x.map Complex.re) gamma N) ∧
    (∀ (x : List ℂ) (N : ℕ) (Tsamp : ℚ) (zero_edge : Bool),
      derivativeFilter2C x N Tsamp zero_edge =
        Option.map₂
          (fun r s => List.zipWith (fun (a b : ℝ) => (a : ℂ) + (b : ℂ) * Complex.I) r s)
          (derivativeFilter2 (x.map Complex.re) N Tsamp zero_edge)
          (derivativeFilter2 (x.map Complex.im) N Tsamp zero_edge)) := by
  refine ⟨fun x N Tsamp => ?_, fun x gamma N => ?_, fun x N Tsamp zero_edge => ?_⟩
  · unfold derivativeFilterC derivativeFilter
    simp only [List.length_map, map_re_extendLinear]
  · unfold fractionalDelayFilterC fractionalDelayFilter
    simp only [List.length_map, map_re_extendLinear]
  · unfold derivativeFilter2C derivativeFilter2
    simp only [List.length_map]
    by_cases h1 : (N + 1) % 4 ≠ 0
    · rw [if_pos h1, if_pos h1, if_pos h1]
      rfl
    · by_cases h2 : x.length = 0
      · rw [if_neg h1, if_neg h1, if_neg h1, if_pos h2, if_pos h2, if_pos h2]
        rfl
      · rw [if_neg h1, if_neg h1, if_neg h1, if_neg h2, if_neg h2, if_neg h2]
        cases zero_edge with
        | false =>
          rw [if_neg Bool.false_ne_true, if_neg Bool.false_ne_true, if_neg Bool.false_ne_true,
            map2_some]
          congr 1
          conv_rhs => rw [← map_re_convolve, ← map_im_convolve, ← map_trimEnds, ← map_trimEnds]
          rw [zipWith_re_im]
        | true =>
          rw [if_pos rfl, if_pos rfl, if_pos rfl, map2_some]
          congr 1
          conv_rhs => rw [← map_re_convolve, ← map_im_convolve, ← map_trimEnds, ← map_trimEnds,
            ← map_zeroEdges Complex.re Complex.zero_re, ← map_zeroEdges Complex.im Complex.zero_im]
          rw [zipWith_re_im]

theorem cexp_pi_div_two_mul_I : Complex.exp ((Real.pi : ℂ) / 2 * Complex.I) = Complex.I := by
  rw [show ((Real.pi : ℂ) / 2) = ((Real.pi / 2 : ℝ) : ℂ) by push_cast; ring,
    Complex.exp_mul_I, ← Complex.ofReal_cos, ← Complex.ofReal_sin,
    Real.cos_pi_div_two, Real.sin_pi_div_two]
  simp

theorem paddedFft_pair (a b : ℂ) (k : ℕ) :
    paddedFft [a, b] k =
      a + b * Complex.exp (-(2 * (Real.pi : ℂ) * Complex.I) * (k : ℂ) / 4) := by
  unfold paddedFft
  simp [Finset.sum_range_succ]
  ring_nf
  exact Or.inl trivial

theorem cexp_val_k0 : Complex.exp (-(2 * (Real.pi : ℂ) * Complex.I) * ((0 : ℕ) : ℂ) / 4) = 1 := by
  rw [show -(2 * (Real.pi : ℂ) * Complex.I) * ((0 : ℕ) : ℂ) / 4 = 0 by push_cast; ring,
    Complex.exp_zero]

theorem cexp_val_k1 :
    Complex.exp (-(2 * (Real.pi : ℂ) * Complex.I) * ((1 : ℕ) : ℂ) / 4) = -Complex.I := by
  rw [show -(2 * (Real.pi : ℂ) * Complex.I) * ((1 : ℕ) : ℂ) / 4 =
      -((Real.pi : ℂ) / 2 * Complex.I) by push_cast; ring,
    Complex.exp_neg, cexp_pi_div_two_mul_I, Complex.inv_I]

theorem cexp_val_k2 :
    Complex.exp (-(2 * (Real.pi : ℂ) * Complex.I) * ((2 : ℕ) : ℂ) / 4) = -1 := by
  rw [show -(2 * (Real.pi : ℂ) * Complex.I) * ((2 : ℕ) : ℂ) / 4 =
      -((Real.pi : ℂ) * Complex.I) by push_cast; ring,
    Complex.exp_neg, Complex.exp_pi_mul_I]
  norm_num

theorem cexp_val_k3 :
    Complex.exp (-(2 * (Real.pi : ℂ) * Complex.I) * ((3 : ℕ) : ℂ) / 4) = Complex.I := by
  rw [show -(2 * (Real.pi : ℂ) * Complex.I) * ((3 : ℕ) : ℂ) / 4 =
      -((Real.pi : ℂ) * Complex.I + (Real.pi : ℂ) / 2 * Complex.I) by push_cast; ring,
    Complex.exp_neg, Complex.exp_add, Complex.exp_pi_mul_I, cexp_pi_div_two_mul_I]
  simp [mul_inv, inv_neg, Complex.inv_I]

/-- Power spectrum of a two-sample signal whose transformed samples are `[1, -1]`
(a bin-aligned tone at half the FFT length). -/
theorem estimatorPP2_one_negone (order : ℕ) (rx : List ℂ)
    (h : rx.map (nonLinearXform order) = [1, -1]) :
    estimatorPP2 order rx = [0, 2, 4, 2] := by
  have hlen : rx.length = 2 := by simpa using congrArg List.length h
  unfold estimatorPP2
  rw [h, hlen]
  have h0 := paddedFft_pair 1 (-1) 0
  have h1 := paddedFft_pair 1 (-1) 1
  have h2 := paddedFft_pair 1 (-1) 2
  have h3 := paddedFft_pair 1 (-1) 3
  rw [cexp_val_k0] at h0
  rw [cexp_val_k1] at h1
  rw [cexp_val_k2] at h2
  rw [cexp_val_k3] at h3
  simp only [List.ofFn_succ, List.ofFn_zero, Fin.val_zero, Fin.val_succ]
  norm_num [h0, h1, h2, h3, Complex.normSq_apply]

/-- Power spectrum of a two-sample signal whose transformed samples are `[1, -I]`
(a tone peaking in the last FFT bin). -/
theorem estimatorPP2_one_negI (order : ℕ) (rx : List ℂ)
    (h : rx.map (nonLinearXform order) = [1, -Complex.I]) :
    estimatorPP2 order rx = [2, 0, 2, 4] := by
  have hlen : rx.length = 2 := by simpa using congrArg List.length h
  unfold estimatorPP2
  rw [h, hlen]
  have h0 := paddedFft_pair 1 (-Complex.I) 0
  have h1 := paddedFft_pair 1 (-Complex.I) 1
  have h2 := paddedFft_pair 1 (-Complex.I) 2
  have h3 := paddedFft_pair 1 (-Complex.I) 3
  rw [cexp_val_k0] at h0
  rw [cexp_val_k1] at h1
  rw [cexp_val_k2] at h2
  rw [cexp_val_k3] at h3
  simp only [List.ofFn_succ, List.ofFn_zero, Fin.val_zero, Fin.val_succ]
  norm_num [h0, h1, h2, h3, Complex.normSq_apply]

/-- Power spectrum of a one-sample signal whose transformed sample is `1`. -/
theorem estimatorPP2_single (order : ℕ) (rx : List ℂ)
    (h : rx.map (nonLinearXform order) = [1]) :
    estimatorPP2 order rx = [1, 1] := by
  have hlen : rx.length = 1 := by simpa using congrArg List.length h
  have hp : ∀ k : ℕ, paddedFft [1] k = 1 := by
    intro k
    unfold paddedFft
    simp [Finset.sum_range_succ]
  unfold estimatorPP2
  rw [h, hlen]
  simp only [List.ofFn_succ, List.ofFn_zero, Fin.val_zero, Fin.val_succ]
  norm_num [hp]

theorem npArgmax_11 : npArgmax ([1, 1] : List ℝ) = 0 := by
  norm_num [npArgmax, npArgmaxAux]

theorem npArgmax_0242 : npArgmax ([0, 2, 4, 2] : List ℝ) = 2 := by
  norm_num [npArgmax, npArgmaxAux]

theorem npArgmax_2024 : npArgmax ([2, 0, 2, 4] : List ℝ) = 3 := by
  norm_num [npArgmax, npArgmaxAux]

theorem xform_one (order : ℕ) : nonLinearXform order 1 = 1 := by
  unfold nonLinearXform
  simp [Complex.arg_one]

/-- The nonlinear transform on a unit-modulus sample `cos θ + i sin θ` with
`θ ∈ (-π, π]` is the pure phase `exp(i * order * θ)`. -/
theorem xform_cos_sin (order : ℕ) (θ : ℝ) (hθ : θ ∈ Set.Ioc (-Real.pi) Real.pi) :
    nonLinearXform order (Complex.cos θ + Complex.sin θ * Complex.I) =
      Complex.exp (Complex.I * (((order : ℝ) * θ : ℝ) : ℂ)) := by
  unfold nonLinearXform
  rw [Complex.arg_cos_add_sin_mul_I hθ]
  have h1 : Real.cos θ * Real.cos θ + Real.sin θ * Real.sin θ = 1 := by
    nlinarith [Real.sin_sq_add_cos_sq θ]
  have hz : (Complex.cos θ + Complex.sin θ * Complex.I) *
      (starRingEnd ℂ) (Complex.cos θ + Complex.sin θ * Complex.I) = 1 := by
    rw [Complex.mul_conj]
    have hn : Complex.normSq (Complex.cos θ + Complex.sin θ * Complex.I) = 1 := by
      simp only [Complex.normSq_apply, Complex.add_re, Complex.add_im, Complex.mul_re,
        Complex.mul_im, Complex.I_re, Complex.I_im, Complex.cos_ofReal_re,
        Complex.cos_ofReal_im, Complex.sin_ofReal_re, Complex.sin_ofReal_im]
      ring_nf
      ring_nf at h1
      linarith
    rw [hn]
    norm_num
  rw [hz, one_mul]

theorem xform_list_qpsk_quarter :
    ([1, Complex.cos ((Real.pi / 4 : ℝ) : ℂ) + Complex.sin ((Real.pi / 4 : ℝ) : ℂ) * Complex.I] :
      List ℂ).map (nonLinearXform 4) = [1, -1] := by
  have hπ := Real.pi_pos
  rw [List.map_cons, List.map_cons, List.map_nil, xform_one,
    xform_cos_sin 4 (Real.pi / 4) ⟨by nlinarith, by nlinarith⟩]
  rw [show (((4 : ℕ) : ℝ) * (Real.pi / 4) : ℝ) = Real.pi by push_cast; ring,
    show Complex.I * ((Real.pi : ℝ) : ℂ) = (Real.pi : ℂ) * Complex.I by ring,
    Complex.exp_pi_mul_I]

theorem xform_list_qpsk_c9 :
    ([1, Complex.cos ((-(Real.pi / 8) : ℝ) : ℂ) + Complex.sin ((-(Real.pi / 8) : ℝ) : ℂ) * Complex.I] :
      List ℂ).map (nonLinearXform 4) = [1, -Complex.I] := by
  have hπ := Real.pi_pos
  rw [List.map_cons, List.map_cons, List.map_nil, xform_one,
    xform_cos_sin 4 (-(Real.pi / 8)) ⟨by nlinarith, by nlinarith⟩]
  rw [show Complex.I * ((((4 : ℕ) : ℝ) * -(Real.pi / 8) : ℝ) : ℂ) =
      -((Real.pi : ℂ) / 2 * Complex.I) by push_cast; ring,
    Complex.exp_neg, cexp_pi_div_two_mul_I, Complex.inv_I]

theorem xform_list_apsk_c9 :
    ([1, Complex.cos ((-(Real.pi / 24) : ℝ) : ℂ) + Complex.sin ((-(Real.pi / 24) : ℝ) : ℂ) * Complex.I] :
      List ℂ).map (nonLinearXform 12) = [1, -Complex.I] := by
  have hπ := Real.pi_pos
  rw [List.map_cons, List.map_cons, List.map_nil, xform_one,
    xform_cos_sin 12 (-(Real.pi / 24)) ⟨by nlinarith, by nlinarith⟩]
  rw [show Complex.I * ((((12 : ℕ) : ℝ) * -(Real.pi / 24) : ℝ) : ℂ) =
      -((Real.pi : ℂ) / 2 * Complex.I) by push_cast; ring,
    Complex.exp_neg, cexp_pi_div_two_mul_I, Complex.inv_I]

theorem xform_list_single (order : ℕ) : ([1] : List ℂ).map (nonLinearXform order) = [1] := by
  rw [List.map_cons, List.map_nil, xform_one]

theorem gen_index_error (order : ℕ) (rx : List ℂ) (mode : String) (h0 : rx.length ≠ 0)
    (hidx : 2 * rx.length ≤ estimatorIdxMax order rx + 1) :
    freqOffsetEstimationGen order rx mode = Except.error DcError.indexError := by
  unfold freqOffsetEstimationGen
  rw [if_neg h0, if_pos hidx]

theorem gen_coarse (order : ℕ) (rx : List ℂ) (h0 : rx.length ≠ 0)
    (hidx : estimatorIdxMax order rx + 1 < 2 * rx.length) :
    freqOffsetEstimationGen order rx "coarse" = Except.ok (coarseEstimate order rx) := by
  have h2 : ¬(2 * rx.length ≤ estimatorIdxMax order rx + 1) := by omega
  simp only [freqOffsetEstimationGen, if_neg h0, if_neg h2]
  simp

theorem gen_invalid (order : ℕ) (rx : List ℂ) (mode : String) (h0 : rx.length ≠ 0)
    (hidx : estimatorIdxMax order rx + 1 < 2 * rx.length)
    (hm1 : mode ≠ "interp_1") (hm2 : mode ≠ "interp_2") (hm3 : mode ≠ "gauss")
    (hm4 : mode ≠ "coarse") :
    freqOffsetEstimationGen order rx mode = Except.error DcError.invalidParameter := by
  have h2 : ¬(2 * rx.length ≤ estimatorIdxMax order rx + 1) := by omega
  simp only [freqOffsetEstimationGen, if_neg h0, if_neg h2, if_neg hm1, if_neg hm2,
    if_neg hm3, if_neg hm4]

theorem coarseEstimate_eq (order : ℕ) (rx : List ℂ) :
    coarseEstimate order rx =
      if 2 * rx.length / 2 ≤ estimatorIdxMax order rx then
        ((estimatorIdxMax order rx : ℝ) - (2 * rx.length : ℝ)) /
          ((2 * rx.length : ℝ) * (order : ℝ))
      else (estimatorIdxMax order rx : ℝ) / ((2 * rx.length : ℝ) * (order : ℝ)) :=
  rfl

/-- The coarse estimate lies in `[-1/(2*order), 1/(2*order))` whenever the peak
bin is not the last bin (so no index error occurs). -/
theorem coarse_range (order : ℕ) (rx : List ℂ) (hord : 0 < order) (h0 : rx.length ≠ 0)
    (hidx : estimatorIdxMax order rx + 1 < 2 * rx.length) :
    -(1 / (2 * (order : ℝ))) ≤ coarseEstimate order rx ∧
      coarseEstimate order rx < 1 / (2 * (order : ℝ)) := by
  have hordR : (0 : ℝ) < (order : ℝ) := by exact_mod_cast hord
  have hn1 : 1 ≤ rx.length := by omega
  have hnR : (1 : ℝ) ≤ (rx.length : ℝ) := by exact_mod_cast hn1
  have hhalf : 2 * rx.length / 2 = rx.length := by omega
  have hi2 : estimatorIdxMax order rx + 2 ≤ 2 * rx.length := by omega
  have hi2R : (estimatorIdxMax order rx : ℝ) + 2 ≤ 2 * (rx.length : ℝ) := by
    exact_mod_cast hi2
  rw [coarseEstimate_eq, hhalf]
  have hden : (0 : ℝ) < 2 * (rx.length : ℝ) * (order : ℝ) := by positivity
  by_cases hcase : rx.length ≤ estimatorIdxMax order rx
  · rw [if_pos hcase]
    have hlow : (rx.length : ℝ) ≤ (estimatorIdxMax order rx : ℝ) := by exact_mod_cast hcase
    constructor
    · rw [le_div_iff₀ hden]
      have hkey : -(1 / (2 * (order : ℝ))) * (2 * (rx.length : ℝ) * (order : ℝ)) =
          -(rx.length : ℝ) := by
        field_simp
        ring
      rw [hkey]
      linarith
    · have hneg : (estimatorIdxMax order rx : ℝ) - 2 * (rx.length : ℝ) < 0 := by linarith
      have hv : ((estimatorIdxMax order rx : ℝ) - 2 * (rx.length : ℝ)) /
          (2 * (rx.length : ℝ) * (order : ℝ)) < 0 := div_neg_of_neg_of_pos hneg hden
      have hp : (0 : ℝ) < 1 / (2 * (order : ℝ)) := by positivity
      linarith
  · rw [if_neg hcase]
    push_neg at hcase
    have hup : (estimatorIdxMax order rx : ℝ) < (rx.length : ℝ) := by exact_mod_cast hcase
    constructor
    · have hvp : (0 : ℝ) ≤ (estimatorIdxMax order rx : ℝ) /
          (2 * (rx.length : ℝ) * (order : ℝ)) := by positivity
      have hp : (0 : ℝ) < 1 / (2 * (order : ℝ)) := by positivity
      linarith
    · rw [div_lt_div_iff₀ hden (by positivity : (0 : ℝ) < 2 * (order : ℝ))]
      nlinarith

theorem idxMax_single (order : ℕ) : estimatorIdxMax order [1] = 0 := by
  unfold estimatorIdxMax
  rw [estimatorPP2_single order [1] (xform_list_single order), npArgmax_11]

theorem idxMax_qpsk_quarter :
    estimatorIdxMax 4
      [1, Complex.cos ((Real.pi / 4 : ℝ) : ℂ) + Complex.sin ((Real.pi / 4 : ℝ) : ℂ) * Complex.I]
      = 2 := by
  unfold estimatorIdxMax
  rw [estimatorPP2_one_negone 4 _ xform_list_qpsk_quarter, npArgmax_0242]

theorem idxMax_qpsk_c9 :
    estimatorIdxMax 4
      [1, Complex.cos ((-(Real.pi / 8) : ℝ) : ℂ) + Complex.sin ((-(Real.pi / 8) : ℝ) : ℂ) * Complex.I]
      = 3 := by
  unfold estimatorIdxMax
  rw [estimatorPP2_one_negI 4 _ xform_list_qpsk_c9, npArgmax_2024]

theorem idxMax_apsk_c9 :
    estimatorIdxMax 12
      [1, Complex.cos ((-(Real.pi / 24) : ℝ) : ℂ) + Complex.sin ((-(Real.pi / 24) : ℝ) : ℂ) * Complex.I]
      = 3 := by
  unfold estimatorIdxMax
  rw [estimatorPP2_one_negI 12 _ xform_list_apsk_c9, npArgmax_2024]

/-- C2 (counterexample): on `rx = [1, exp(i*pi/4)]` the QPSK coarse estimator
returns exactly `-1/8 = -1/(2*4)` (the peak sits exactly at bin `Lfft/2`), which
is *outside* the claimed interval `(-1/(2*4), 1/(2*4)]` — the interval is closed
on the left and open on the right, not the other way around. -/
theorem c2_counterexample :
    freqOffsetEstimationQpsk
      [1, Complex.cos ((Real.pi / 4 : ℝ) : ℂ) + Complex.sin ((Real.pi / 4 : ℝ) : ℂ) * Complex.I]
      "coarse" = Except.ok (-(1 / 8 : ℝ)) ∧
    (-(1 / 8 : ℝ)) ∉ Set.Ioc (-(1 / (2 * 4) : ℝ)) (1 / (2 * 4) : ℝ) := by
  constructor
  · have hc := gen_coarse 4
      [1, Complex.cos ((Real.pi / 4 : ℝ) : ℂ) + Complex.sin ((Real.pi / 4 : ℝ) : ℂ) * Complex.I]
      (by simp) (by rw [idxMax_qpsk_quarter]; simp)
    rw [show freqOffsetEstimationQpsk
        [1, Complex.cos ((Real.pi / 4 : ℝ) : ℂ) + Complex.sin ((Real.pi / 4 : ℝ) : ℂ) * Complex.I]
        "coarse" = freqOffsetEstimationGen 4
        [1, Complex.cos ((Real.pi / 4 : ℝ) : ℂ) + Complex.sin ((Real.pi / 4 : ℝ) : ℂ) * Complex.I]
        "coarse" from rfl, hc, coarseEstimate_eq, idxMax_qpsk_quarter]
    norm_num
  · norm_num [Set.mem_Ioc]

/-- C2 (amended): whenever the maximum-power bin is not the last FFT bin (so the
estimator returns at all), the `'coarse'` mode of both estimators returns the
claimed wraparound mapping of `idx_max`, and the returned value lies in
`[-1/(2*order), 1/(2*order))` — closed at the left endpoint (attained when the
peak is exactly at bin `Lfft/2`), open at the right. -/
theorem c2_coarse_estimate (rx : List ℂ) (hrx : rx ≠ []) :
    (estimatorIdxMax 4 rx + 1 < 2 * rx.length →
      freqOffsetEstimationQpsk rx "coarse" = Except.ok (coarseEstimate 4 rx) ∧
      coarseEstimate 4 rx =
        (if 2 * rx.length / 2 ≤ estimatorIdxMax 4 rx then
          ((estimatorIdxMax 4 rx : ℝ) - (2 * rx.length : ℝ)) /
            ((2 * rx.length : ℝ) * ((4 : ℕ) : ℝ))
        else (estimatorIdxMax 4 rx : ℝ) / ((2 * rx.length : ℝ) * ((4 : ℕ) : ℝ))) ∧
      -(1 / (2 * ((4 : ℕ) : ℝ))) ≤ coarseEstimate 4 rx ∧
      coarseEstimate 4 rx < 1 / (2 * ((4 : ℕ) : ℝ))) ∧
    (estimatorIdxMax 12 rx + 1 < 2 * rx.length →
      freqOffsetEstimation16Apsk rx "coarse" = Except.ok (coarseEstimate 12 rx) ∧
      coarseEstimate 12 rx =
        (if 2 * rx.length / 2 ≤ estimatorIdxMax 12 rx then
          ((estimatorIdxMax 12 rx : ℝ) - (2 * rx.length : ℝ)) /
            ((2 * rx.length : ℝ) * ((12 : ℕ) : ℝ))
        else (estimatorIdxMax 12 rx : ℝ) / ((2 * rx.length : ℝ) * ((12 : ℕ) : ℝ))) ∧
      -(1 / (2 * ((12 : ℕ) : ℝ))) ≤ coarseEstimate 12 rx ∧
      coarseEstimate 12 rx < 1 / (2 * ((12 : ℕ) : ℝ))) := by
  have hlen : rx.length ≠ 0 := by
    simpa using (List.length_pos.mpr hrx).ne'
  constructor
  · intro hidx
    exact ⟨gen_coarse 4 rx hlen hidx, coarseEstimate_eq 4 rx,
      (coarse_range 4 rx (by norm_num) hlen hidx).1,
      (coarse_range 4 rx (by norm_num) hlen hidx).2⟩
  · intro hidx
    exact ⟨gen_coarse 12 rx hlen hidx, coarseEstimate_eq 12 rx,
      (coarse_range 12 rx (by norm_num) hlen hidx).1,
      (coarse_range 12 rx (by norm_num) hlen hidx).2⟩

/-- Witness for C2 (amended) on the one-sample signal `[1]` (peak in bin 0). -/
theorem c2_witness :
    (freqOffsetEstimationQpsk [1] "coarse" = Except.ok (coarseEstimate 4 [1]) ∧
      -(1 / (2 * ((4 : ℕ) : ℝ))) ≤ coarseEstimate 4 [1] ∧
      coarseEstimate 4 [1] < 1 / (2 * ((4 : ℕ) : ℝ))) ∧
    (freqOffsetEstimation16Apsk [1] "coarse" = Except.ok (coarseEstimate 12 [1]) ∧
      -(1 / (2 * ((12 : ℕ) : ℝ))) ≤ coarseEstimate 12 [1] ∧
      coarseEstimate 12 [1] < 1 / (2 * ((12 : ℕ) : ℝ))) := by
  have h4 := (c2_coarse_estimate [1] (by simp)).1 (by rw [idxMax_single]; simp)
  have h12 := (c2_coarse_estimate [1] (by simp)).2 (by rw [idxMax_single]; simp)
  exact ⟨⟨h4.1, h4.2.2.1, h4.2.2.2⟩, ⟨h12.1, h12.2.2.1, h12.2.2.2⟩⟩

/-- C5 (counterexample): on an input whose transformed spectrum peaks in the last
FFT bin, an unknown mode string does *not* produce `InvalidParameterError`: the
neighbor power `PP2[idx_max+1]` is read before the mode dispatch and the call
dies with `IndexError`. -/
theorem c5_counterexample :
    freqOffsetEstimationQpsk
      [1, Complex.cos ((-(Real.pi / 8) : ℝ) : ℂ) + Complex.sin ((-(Real.pi / 8) : ℝ) : ℂ) * Complex.I]
      "bogus" = Except.error DcError.indexError ∧
    freqOffsetEstimationQpsk
      [1, Complex.cos ((-(Real.pi / 8) : ℝ) : ℂ) + Complex.sin ((-(Real.pi / 8) : ℝ) : ℂ) * Complex.I]
      "bogus" ≠ Except.error DcError.invalidParameter := by
  have he := gen_index_error 4
    [1, Complex.cos ((-(Real.pi / 8) : ℝ) : ℂ) + Complex.sin ((-(Real.pi / 8) : ℝ) : ℂ) * Complex.I]
    "bogus" (by simp) (by rw [idxMax_qpsk_c9]; simp)
  refine ⟨he, ?_⟩
  rw [show freqOffsetEstimationQpsk
      [1, Complex.cos ((-(Real.pi / 8) : ℝ) : ℂ) + Complex.sin ((-(Real.pi / 8) : ℝ) : ℂ) * Complex.I]
      "bogus" = freqOffsetEstimationGen 4
      [1, Complex.cos ((-(Real.pi / 8) : ℝ) : ℂ) + Complex.sin ((-(Real.pi / 8) : ℝ) : ℂ) * Complex.I]
      "bogus" from rfl, he]
  simp

/-- C5 (amended): for a non-empty input whose peak bin is not the last one (so
the unconditional neighbor reads succeed), any mode string outside
`{'coarse','gauss','interp_1','interp_2'}` makes both estimators fail with
`InvalidParameterError`; for empty input or a last-bin peak a
`ValueError`/`IndexError` occurs before the mode is ever examined. -/
theorem c5_invalid_mode (rx : List ℂ) (mode : String) (hrx : rx ≠ [])
    (h1 : mode ≠ "coarse") (h2 : mode ≠ "gauss") (h3 : mode ≠ "interp_1")
    (h4 : mode ≠ "interp_2") :
    (estimatorIdxMax 4 rx + 1 < 2 * rx.length →
      freqOffsetEstimationQpsk rx mode = Except.error DcError.invalidParameter) ∧
    (estimatorIdxMax 12 rx + 1 < 2 * rx.length →
      freqOffsetEstimation16Apsk rx mode = Except.error DcError.invalidParameter) := by
  have hlen : rx.length ≠ 0 := by
    simpa using (List.length_pos.mpr hrx).ne'
  exact ⟨fun hidx => gen_invalid 4 rx mode hlen hidx h3 h4 h2 h1,
    fun hidx => gen_invalid 12 rx mode hlen hidx h3 h4 h2 h1⟩

/-- Witness for C5 (amended) at `rx = [1]`, `mode = "bogus"`. -/
theorem c5_witness :
    freqOffsetEstimationQpsk [1] "bogus" = Except.error DcError.invalidParameter ∧
    freqOffsetEstimation16Apsk [1] "bogus" = Except.error DcError.invalidParameter :=
  ⟨(c5_invalid_mode [1] "bogus" (by simp) (by decide) (by decide) (by decide) (by decide)).1
      (by rw [idxMax_single]; simp),
   (c5_invalid_mode [1] "bogus" (by simp) (by decide) (by decide) (by decide) (by decide)).2
      (by rw [idxMax_single]; simp)⟩

/-- C9: inputs whose transformed power spectrum peaks in the last FFT bin exist
for both estimators (e.g. `[1, exp(-i*pi/8)]` for QPSK and `[1, exp(-i*pi/24)]`
for 16-APSK), and every such input makes both estimators read `PP2[idx_max+1]`
out of bounds — for *every* mode, including `'coarse'` — because the neighbor
powers are computed before the mode is dispatched. -/
theorem c9_last_bin_index_error :
    (∃ rx : List ℂ, rx ≠ [] ∧ estimatorIdxMax 4 rx = 2 * rx.length - 1) ∧
    (∃ rx : List ℂ, rx ≠ [] ∧ estimatorIdxMax 12 rx = 2 * rx.length - 1) ∧
    (∀ (rx : List ℂ) (mode : String), rx ≠ [] → estimatorIdxMax 4 rx = 2 * rx.length - 1 →
      freqOffsetEstimationQpsk rx mode = Except.error DcError.indexError) ∧
    (∀ (rx : List ℂ) (mode : String), rx ≠ [] → estimatorIdxMax 12 rx = 2 * rx.length - 1 →
      freqOffsetEstimation16Apsk rx mode = Except.error DcError.indexError) := by
  refine ⟨⟨[1, Complex.cos ((-(Real.pi / 8) : ℝ) : ℂ) +
      Complex.sin ((-(Real.pi / 8) : ℝ) : ℂ) * Complex.I], by simp,
      by rw [idxMax_qpsk_c9]; simp⟩,
    ⟨[1, Complex.cos ((-(Real.pi / 24) : ℝ) : ℂ) +
      Complex.sin ((-(Real.pi / 24) : ℝ) : ℂ) * Complex.I], by simp,
      by rw [idxMax_apsk_c9]; simp⟩,
    fun rx mode hne hlast => ?_, fun rx mode hne hlast => ?_⟩
  · have hlen : rx.length ≠ 0 := by simpa using (List.length_pos.mpr hne).ne'
    exact gen_index_error 4 rx mode hlen (by omega)
  · have hlen : rx.length ≠ 0 := by simpa using (List.length_pos.mpr hne).ne'
    exact gen_index_error 12 rx mode hlen (by omega)

/-- Witness for C9: the concrete QPSK input with a last-bin peak makes even the
`'coarse'` mode raise the out-of-bounds error. -/
theorem c9_witness :
    freqOffsetEstimationQpsk
      [1, Complex.cos ((-(Real.pi / 8) : ℝ) : ℂ) + Complex.sin ((-(Real.pi / 8) : ℝ) : ℂ) * Complex.I]
      "coarse" = Except.error DcError.indexError :=
  c9_last_bin_index_error.2.2.1
    [1, Complex.cos ((-(Real.pi / 8) : ℝ) : ℂ) + Complex.sin ((-(Real.pi / 8) : ℝ) : ℂ) * Complex.I]
    "coarse" (by simp) (by rw [idxMax_qpsk_c9]; simp)

/-- C8: `createDerivativeFilter` rejects every length with `(N+1) % 4 ≠ 0` with the
parameter error, and for admissible lengths returns a real tap sequence of length `N`. -/
theorem c8_error_behavior (N : ℕ) (Tsamp : ℚ) :
    ((N + 1) % 4 ≠ 0 → createDerivativeFilter N Tsamp = none) ∧
    ((N + 1) % 4 = 0 → ∃ d : List ℝ, createDerivativeFilter N Tsamp = some d ∧ d.length = N) := by
  constructor
  · intro h
    simp [createDerivativeFilter, h]
  · intro h
    refine ⟨createDerivativeFilterTaps N Tsamp, ?_, ?_⟩
    · simp [createDerivativeFilter, h]
    · simp [createDerivativeFilterTaps]

/-- Witness for C8 at the claim's own example `N = 50` (rejected) and at the
admissible length `N = 3` (a length-3 tap list is returned). -/
theorem c8_witness :
    createDerivativeFilter 50 1 = none ∧
    ∃ d : List ℝ, createDerivativeFilter 3 1 = some d ∧ d.length = 3 :=
  ⟨(c8_error_behavior 50 1).1 (by decide), (c8_error_behavior 3 1).2 (by decide)⟩
